import Mathlib

/-!
# Verification of the Nexus Local indexing and hybrid-retrieval core

Shallow embedding of the Rust sources of `nexus_local` (crates
`nexus_core`, `store`, `cli`, ui `src-tauri`), together with proofs
settling the specification claims about it.

Conventions:
* Rust `char` sequences (`Vec<char>`, `&str` viewed as scalar values)
  are `List Char`; Rust byte length `str::len()` is `rustByteLen`.
* Machine floats in the RRF fusion are modelled by exact non-negative
  fractions (`Score`, an unreduced numerator/denominator pair over `Nat`);
  `scoreLE_iff_scoreVal` proves the comparisons agree with the rational
  order, and every comparison proved here is at magnitudes where `f32`
  and exact arithmetic order results identically.
* External backends (tantivy query execution, LanceDB ANN search) are
  oracle parameters; the repository's control flow around them is
  embedded faithfully.
-/

/-- Rust `char::is_whitespace`: the Unicode `White_Space` property
(used by `str::trim` and by `chunk_by_chars`). -/
def rustIsWhitespace (c : Char) : Bool :=
  let n := c.toNat
  (n == 0x9) || (n == 0xA) || (n == 0xB) || (n == 0xC) || (n == 0xD) ||
  (n == 0x20) || (n == 0x85) || (n == 0xA0) || (n == 0x1680) ||
  ((0x2000 ≤ n) && (n ≤ 0x200A)) ||
  (n == 0x2028) || (n == 0x2029) || (n == 0x202F) || (n == 0x205F) ||
  (n == 0x3000)

/-- Rust `str::trim` on a scalar-value sequence. -/
def rustTrim (l : List Char) : List Char :=
  ((l.dropWhile rustIsWhitespace).reverse.dropWhile rustIsWhitespace).reverse

/-- UTF-8 byte width of one Unicode scalar value. -/
def charByteSize (c : Char) : Nat :=
  if c.toNat ≤ 0x7F then 1
  else if c.toNat ≤ 0x7FF then 2
  else if c.toNat ≤ 0xFFFF then 3
  else 4

/-- Rust `str::len()`: the UTF-8 byte length of the text. -/
def rustByteLen (l : List Char) : Nat := (l.map charByteSize).sum

/-- Rust `text.split("\n\n")`: non-overlapping left-to-right split on a
double newline, keeping empty pieces (as `str::split` does). -/
def splitNN : List Char → List (List Char)
  | [] => [[]]
  | '\n' :: '\n' :: rest => [] :: splitNN rest
  | c :: rest =>
    match splitNN rest with
    | [] => [[c]]
    | h :: t => (c :: h) :: t

/-- Array indexing `chars[i]` (every access in the source is in range;
the default is an arbitrary non-whitespace character). -/
def charAt (chars : List Char) (i : Nat) : Char := chars.getD i 'x'

/-- The inner rewind loop of `chunk_by_chars`
(`nexus_core/src/lib.rs:618-621`): decrement `break_pos` while it is
above `start` and does not sit on whitespace. -/
def findBreakPos (chars : List Char) (start : Nat) : Nat → Nat
  | 0 => 0
  | bp + 1 =>
    if start < bp + 1 ∧ ¬ rustIsWhitespace (charAt chars (bp + 1)) then
      findBreakPos chars start bp
    else bp + 1

/-- The trailing whitespace-skip loop of `chunk_by_chars`
(`nexus_core/src/lib.rs:636-638`), with an explicit step counter; the
counter `chars.length - start` used below never runs out. -/
def skipWsAux (chars : List Char) : Nat → Nat → Nat
  | 0, start => start
  | k + 1, start =>
    if start < chars.length ∧ rustIsWhitespace (charAt chars start) then
      skipWsAux chars k (start + 1)
    else start

/-- `start` advanced past any whitespace scalar values. -/
def skipWs (chars : List Char) (start : Nat) : Nat :=
  skipWsAux chars (chars.length - start) start

/-- One window bound of `chunk_by_chars`: `end = min(start+max_len, len)`,
rewound to the found break position when that lies strictly past the
half-window mark. -/
def windowEnd (chars : List Char) (maxLen start : Nat) : Nat :=
  if min (start + maxLen) chars.length < chars.length then
    if start + maxLen / 2 < findBreakPos chars start (min (start + maxLen) chars.length) then
      findBreakPos chars start (min (start + maxLen) chars.length)
    else min (start + maxLen) chars.length
  else min (start + maxLen) chars.length

/-- The outer window loop of `chunk_by_chars`
(`nexus_core/src/lib.rs:612-639`), fuelled; `none` means the fuel ran
out (the termination theorem shows it never does for `max_len ≥ 1`). -/
def chunkAux (chars : List Char) (maxLen : Nat) : Nat → Nat → Option (List (List Char))
  | 0, _ => none
  | fuel + 1, start =>
    if start < chars.length then
      let e := windowEnd chars maxLen start
      let trimmed := rustTrim ((chars.drop start).take (e - start))
      match chunkAux chars maxLen fuel (skipWs chars e) with
      | none => none
      | some cs => some (if trimmed.isEmpty then cs else trimmed :: cs)
    else some []

/-- `chunk_by_chars(text, max_len)` (`nexus_core/src/lib.rs:606-642`):
character-based chunking that respects word boundaries. -/
def chunk_by_chars (chars : List Char) (maxLen : Nat) : Option (List (List Char)) :=
  chunkAux chars maxLen (chars.length + 1) 0

/-- The first flush condition of the paragraph loop
(`nexus_core/src/lib.rs:577`):
`!current.is_empty() && current.len() + para.len() + 2 > max_len`. -/
def cbpFlush (maxLen : Nat) (current para : List Char) : Bool :=
  ¬ current.isEmpty ∧ maxLen < rustByteLen current + rustByteLen para + 2

/-- Chunks emitted by the first flush (`lib.rs:577-580`). -/
def cbpPre1 (maxLen : Nat) (current para : List Char) : List (List Char) :=
  if cbpFlush maxLen current para then [current] else []

/-- The buffer after the first flush. -/
def cbpCur1 (maxLen : Nat) (current para : List Char) : List Char :=
  if cbpFlush maxLen current para then [] else current

/-- Chunks emitted before an over-long paragraph is recursively
char-chunked (`lib.rs:583-587`): both flushes, in order. -/
def cbpFlushed (maxLen : Nat) (current para : List Char) : List (List Char) :=
  if (cbpCur1 maxLen current para).isEmpty then cbpPre1 maxLen current para
  else cbpPre1 maxLen current para ++ [cbpCur1 maxLen current para]

/-- The buffer after a normal paragraph append (`lib.rs:592-595`):
`current.push_str("\n\n")` (when non-empty) then `current.push_str(para)`. -/
def cbpAppend (maxLen : Nat) (current para : List Char) : List Char :=
  if (cbpCur1 maxLen current para).isEmpty then para
  else cbpCur1 maxLen current para ++ '\n' :: '\n' :: para

/-- The paragraph-accumulation loop of `chunk_by_paragraphs`
(`nexus_core/src/lib.rs:566-602`); `current` is the pending buffer. -/
def cbpAux (maxLen : Nat) : List (List Char) → List Char → Option (List (List Char))
  | [], current => some (if current.isEmpty then [] else [current])
  | p :: ps, current =>
    if (rustTrim p).isEmpty then cbpAux maxLen ps current
    else if maxLen < rustByteLen (rustTrim p) then
      match chunk_by_chars (rustTrim p) maxLen with
      | none => none
      | some sub =>
        match cbpAux maxLen ps [] with
        | none => none
        | some rest => some (cbpFlushed maxLen current (rustTrim p) ++ sub ++ rest)
    else
      match cbpAux maxLen ps (cbpAppend maxLen current (rustTrim p)) with
      | none => none
      | some rest => some (cbpPre1 maxLen current (rustTrim p) ++ rest)

/-- `chunk_by_paragraphs(paragraphs, max_len)`
(`nexus_core/src/lib.rs:566-602`). -/
def chunk_by_paragraphs (paras : List (List Char)) (maxLen : Nat) : Option (List (List Char)) :=
  cbpAux maxLen paras []

/-- The mode-selection condition of `chunk_text`
(`nexus_core/src/lib.rs:552-563`): the count of ALL `split("\n\n")`
pieces is `> 1` and `< text.len() / 100` (byte length). -/
def usesParagraphMode (text : List Char) : Bool :=
  1 < (splitNN text).length ∧ (splitNN text).length < rustByteLen text / 100

/-- `chunk_text(text, max_len)` (`nexus_core/src/lib.rs:552-563`). -/
def chunk_text (text : List Char) (maxLen : Nat) : Option (List (List Char)) :=
  if usesParagraphMode text then chunk_by_paragraphs (splitNN text) maxLen
  else chunk_by_chars text maxLen

/-! ## State Manager (`store/src/state.rs`) and paged checkpoints

The `files`/`file_docs` tables are an association list from the path to
one record. The record carries the optional `(page_cursor, total_pages)`
pair of §4.F; the functions embedded from `state.rs` never read those
two fields (the shipped `state.rs` has no such columns), while
`mark_page_indexed` / `get_resume_page` — called from
`nexus_core/src/lib.rs:373,471` but absent from `src/` — are modelled
from the spec. The filesystem is a function `disk : String → Option Int`
giving the current mtime of an existing path. -/

/-- File state in the index (`state.rs:16-25`). -/
inductive FileState where
  | NotIndexed
  | Indexed
  | Modified
  | Deleted
deriving DecidableEq, Repr

/-- One row of `files` joined with its `file_docs` set. -/
structure FileRec where
  mtime : Int
  docIds : List String
  pageCursor : Option Nat
  totalPages : Option Nat
deriving DecidableEq, Repr

/-- The state database: `path ↦ record`, in row order. -/
abbrev StateDb := List (String × FileRec)

/-- `SELECT ... WHERE path = ?1` on the association list. -/
def lookupRec : StateDb → String → Option FileRec
  | [], _ => none
  | (q, r) :: rest, p => if q = p then some r else lookupRec rest p

/-- Upsert of one row (`INSERT ... ON CONFLICT(path) DO UPDATE`). -/
def upsertRec : StateDb → String → FileRec → StateDb
  | [], p, r => [(p, r)]
  | (q, r0) :: rest, p, r =>
    if q = p then (p, r) :: rest else (q, r0) :: upsertRec rest p r

/-- The `file_docs` set currently recorded for a path. -/
def docIdsOf (st : StateDb) (p : String) : List String :=
  ((lookupRec st p).getD ⟨0, [], none, none⟩).docIds

/-- Modelled from the spec: `mark_page_indexed(path, mtime, page_num,
total_pages, page_doc_ids)` (§4.F) — absent from `src/`, only its caller
`nexus_core/src/lib.rs:471` ships. Upsert the file row; APPEND
`page_doc_ids` to `file_docs`; set `page_cursor = page_num + 1` and
`total_pages`; clear the cursor when `page_cursor == total_pages`. -/
def mark_page_indexed (st : StateDb) (path : String) (mtime : Int)
    (pageNum totalPages : Nat) (pageDocIds : List String) : StateDb :=
  let old := (lookupRec st path).getD ⟨mtime, [], none, none⟩
  let cursor := pageNum + 1
  upsertRec st path
    { mtime := mtime
      docIds := old.docIds ++ pageDocIds
      pageCursor := if cursor = totalPages then none else some cursor
      totalPages := some totalPages }

/-- Modelled from the spec: `get_resume_page(path, mtime)` (§4.F) —
absent from `src/`, only its caller `nexus_core/src/lib.rs:373` ships.
Return the stored cursor when the stored mtime matches, else none. -/
def get_resume_page (st : StateDb) (path : String) (mtime : Int) : Option Nat :=
  match lookupRec st path with
  | none => none
  | some r => if r.mtime = mtime then r.pageCursor else none

/-- Phase 3's resume computation (`nexus_core/src/lib.rs:372-375`):
`get_resume_page(path, mtime).ok().flatten().unwrap_or(0)`. -/
def resumePage (st : StateDb) (path : String) (mtime : Int) : Nat :=
  (get_resume_page st path mtime).getD 0

/-- Phase 3 iterates `pages.into_iter().skip(resume_page)`
(`nexus_core/src/lib.rs:400`). -/
def pagesProcessed {α : Type} (pages : List α) (resume : Nat) : List α :=
  pages.drop resume

/-- Derived state of a recorded row against the disk
(`state.rs:123-143` and `state.rs:236-253`). -/
def rowState (r : FileRec) (disk : String → Option Int) (path : String) : FileState :=
  match disk path with
  | none => .Deleted
  | some current => if r.mtime < current then .Modified else .Indexed

/-- `StateManager::get_file_state` (`state.rs:108-145`): an unrecorded
path is `NotIndexed` — the disk is consulted only for recorded paths. -/
def get_file_state (st : StateDb) (disk : String → Option Int) (path : String) : FileState :=
  match lookupRec st path with
  | none => .NotIndexed
  | some r => rowState r disk path

/-- `StateManager::needs_indexing` (`state.rs:148-151`):
`matches!(state, NotIndexed | Modified)`. -/
def needs_indexing (st : StateDb) (disk : String → Option Int) (path : String) : Bool :=
  match get_file_state st disk path with
  | .NotIndexed => true
  | .Modified => true
  | _ => false

/-- `StateManager::get_deleted_files` (`state.rs:168-182`): every
recorded path that no longer exists on disk, in row order. -/
def get_deleted_files (st : StateDb) (disk : String → Option Int) : List String :=
  (st.map Prod.fst).filter (fun p => (disk p).isNone)

/-- `StateManager::remove_file` (`state.rs:185-202`): return the owned
doc_ids, then delete the path from both tables. -/
def remove_file (st : StateDb) (path : String) : List String × StateDb :=
  (docIdsOf st path, st.filter (fun e => decide (¬ e.1 = path)))

/-- `FileInfo` as produced by `get_all_files` (`state.rs:212-265`). -/
structure FileInfo where
  path : String
  fileState : FileState
  mtime : Int
  docIds : List String
deriving DecidableEq, Repr

/-- `StateManager::get_all_files` (`state.rs:212-265`); the state field
is computed at call time against the disk. -/
def get_all_files (st : StateDb) (disk : String → Option Int) : List FileInfo :=
  st.map (fun e => ⟨e.1, rowState e.2 disk e.1, e.2.mtime, e.2.docIds⟩)

/-! ## Vector store and lexical index doc_id sets, garbage collection

For GC only the doc_id row sets matter. `delete_by_doc_ids` on the
vector store (called at `nexus_core/src/lib.rs:133,143`) is absent from
`src/crates/store/src/lib.rs`; it is modelled from the spec (§4.D):
delete matching rows, return how many rows were actually removed. -/

/-- Modelled from the spec: Vector Store `delete_by_ids(ids)` (§4.D) —
returns `(removed_count, remaining rows)`. -/
def store_delete_by_doc_ids (rows : List String) (ids : List String) :
    Nat × List String :=
  ((rows.filter (fun r => decide (r ∈ ids))).length,
   rows.filter (fun r => decide (r ∉ ids)))

/-- `GcResult` (`nexus_core/src/lib.rs:74-82`). -/
structure GcResult where
  deletedFiles : Nat
  modifiedFiles : Nat
  embeddingsRemoved : Nat
deriving DecidableEq, Repr

/-- Aggregate world state threaded through `garbage_collect`: the state
DB, the vector-store rows, the lexical-index rows, and the counters. -/
structure GcWorld where
  state : StateDb
  vstore : List String
  lexical : List String
  result : GcResult
deriving DecidableEq, Repr

/-- Step 1 of `garbage_collect` (`nexus_core/src/lib.rs:129-137`): for
each deleted path, `remove_file`, then — when the id list is non-empty —
delete the ids from the VECTOR store only. -/
def gcDeletedStep (w : GcWorld) (path : String) : GcWorld :=
  let (ids, st') := remove_file w.state path
  if ids.isEmpty then { w with state := st' }
  else
    let (cnt, vs') := store_delete_by_doc_ids w.vstore ids
    { state := st'
      vstore := vs'
      lexical := w.lexical
      result := { w.result with
        embeddingsRemoved := w.result.embeddingsRemoved + cnt
        deletedFiles := w.result.deletedFiles + 1 } }

/-- Step 2 of `garbage_collect` (`nexus_core/src/lib.rs:140-147`): for
each `Modified` file with a non-empty doc_id list, delete the old ids
from the VECTOR store only; the state row is left in place. -/
def gcModifiedStep (w : GcWorld) (fi : FileInfo) : GcWorld :=
  if fi.fileState = .Modified ∧ ¬ fi.docIds.isEmpty then
    let (cnt, vs') := store_delete_by_doc_ids w.vstore fi.docIds
    { w with
      vstore := vs'
      result := { w.result with
        embeddingsRemoved := w.result.embeddingsRemoved + cnt
        modifiedFiles := w.result.modifiedFiles + 1 } }
  else w

/-- `Indexer::garbage_collect` (`nexus_core/src/lib.rs:120-150`) with a
state manager configured: clean up deleted files, then old embeddings of
modified files. Note that the function never touches `self.lexical`. -/
def garbage_collect (st : StateDb) (disk : String → Option Int)
    (vstore lexical : List String) : GcWorld :=
  let w0 : GcWorld := ⟨st, vstore, lexical, ⟨0, 0, 0⟩⟩
  let w1 := (get_deleted_files st disk).foldl gcDeletedStep w0
  (get_all_files w1.state disk).foldl gcModifiedStep w1

/-! ## Lexical index search control flow (`store/src/lexical.rs:149-197`)

The tantivy query parser and searcher are external; they enter as oracle
parameters. `ParsedQuery` distinguishes a successfully parsed query from
the `AllQuery` fallback the source substitutes on a parse error. -/

/-- The query handed to the tantivy searcher: either the parsed user
query or the `AllQuery` fallback (`lexical.rs:160-165`). -/
inductive ParsedQuery (Q : Type) where
  | parsed (q : Q)
  | matchAll
deriving DecidableEq, Repr

/-- One hydrated lexical hit (`LexicalSearchResult`, `lexical.rs:26-31`). -/
structure LexicalSearchResult where
  docId : String
  filePath : String
  chunkIndex : Nat
  score : ℚ
deriving DecidableEq, Repr

/-- `LexicalIndex::search(query_str, top_k)` (`lexical.rs:149-197`):
return `Ok(vec![])` when the trimmed query is empty; otherwise parse,
falling back to a match-all query when parsing fails, and run the
searcher. `parse` is tantivy's `QueryParser::parse_query`; `exec` is
`searcher.search(…, TopDocs::with_limit(top_k))` together with the
document hydration loop. -/
def lexical_search {Q : Type} (parse : List Char → Option Q)
    (exec : ParsedQuery Q → Nat → Except String (List LexicalSearchResult))
    (queryStr : List Char) (topK : Nat) : Except String (List LexicalSearchResult) :=
  if (rustTrim queryStr).isEmpty then Except.ok []
  else
    match parse queryStr with
    | some q => exec (.parsed q) topK
    | none => exec .matchAll topK

/-! ## Hybrid search with Reciprocal Rank Fusion

Embedded from the hybrid branch of `Commands::Search`
(`cli/src/main.rs:345-395`); the ui command `search`
(`ui/src-tauri/src/lib.rs:137-186`) is line-for-line the same
algorithm. The `HashMap<String, (f32, Option<String>, PathBuf, usize)>`
is modelled by an association list in first-insertion order; theorems
that depend on the map's (unspecified) iteration order quantify over
permutations of this list. Combined scores are exact fractions. -/

/-- One vector-store hit as consumed by the fusion
(`store::SearchResult` with its metadata flattened). -/
structure VectorHit where
  docId : String
  score : ℚ
  snippet : Option String
  filePath : String
  chunkIndex : Nat
deriving DecidableEq, Repr

/-- A combined RRF score: an exact non-negative rational kept as an
UNREDUCED `numerator / denominator` pair with a positive denominator.
(The source sums `f32` reciprocals; this keeps the arithmetic exact and
kernel-computable. `scoreVal` reads the value in `ℚ`, and
`scoreLE_iff_scoreVal` below proves the comparisons used by the sort
agree with the rational-number order.) -/
abbrev Score : Type := { p : Nat × Nat // 0 < p.2 }

/-- Addition of scores: `a/b + c/d = (a*d + c*b) / (b*d)`. -/
def scoreAdd (x y : Score) : Score :=
  ⟨(x.val.1 * y.val.2 + y.val.1 * x.val.2, x.val.2 * y.val.2), Nat.mul_pos x.property y.property⟩

/-- Order on scores by cross multiplication: `a/b ≤ c/d ↔ a*d ≤ c*b`. -/
def scoreLE (x y : Score) : Prop := x.val.1 * y.val.2 ≤ y.val.1 * x.val.2

instance : DecidableRel scoreLE := fun x y =>
  inferInstanceAs (Decidable (x.val.1 * y.val.2 ≤ y.val.1 * x.val.2))

/-- Value inequality of scores by cross multiplication. -/
abbrev scoreNe (x y : Score) : Prop := ¬ x.val.1 * y.val.2 = y.val.1 * x.val.2

/-- Strict order on score values by cross multiplication. -/
def scoreLT (x y : Score) : Prop := x.val.1 * y.val.2 < y.val.1 * x.val.2

/-- The rational value of a score. -/
def scoreVal (x : Score) : ℚ := (x.val.1 : ℚ) / (x.val.2 : ℚ)

/-- One entry of the RRF score map: doc_id with its running combined
score and the first-seen metadata. -/
structure FuseEntry where
  docId : String
  score : Score
  snippet : Option String
  filePath : String
  chunkIndex : Nat
deriving DecidableEq

/-- `doc_scores.entry(id).or_insert((0.0, meta)); entry.0 += delta` on
the association list: a fresh id is appended with score `delta`, an
existing id keeps its first-seen metadata and accumulates the score. -/
def bumpEntry : List FuseEntry → String → Score →
    Option String → String → Nat → List FuseEntry
  | [], id, delta, sn, fp, ci => [⟨id, delta, sn, fp, ci⟩]
  | e :: rest, id, delta, sn, fp, ci =>
    if e.docId = id then { e with score := scoreAdd e.score delta } :: rest
    else e :: bumpEntry rest id delta sn fp ci

/-- The RRF constant `k = 60.0` (`cli/src/main.rs:352`). -/
def rrfK : Nat := 60

/-- The RRF contribution of zero-based rank `r`: `1/(k + r + 1)`. -/
def rrfScore (rank : Nat) : Score := ⟨(1, rrfK + rank + 1), by omega⟩

/-- Folding the vector result list into the score map
(`cli/src/main.rs:357-366`): rank-indexed, snippet/path/chunk taken from
the vector hit on first insertion. -/
def fuseVector (entries : List FuseEntry) (vres : List VectorHit) : List FuseEntry :=
  vres.enum.foldl
    (fun acc p =>
      bumpEntry acc p.2.docId (rrfScore p.1) p.2.snippet p.2.filePath p.2.chunkIndex)
    entries

/-- Folding the lexical result list into the score map
(`cli/src/main.rs:369-378`): snippet `None` on first insertion. -/
def fuseLexical (entries : List FuseEntry) (lres : List LexicalSearchResult) : List FuseEntry :=
  lres.enum.foldl
    (fun acc p =>
      bumpEntry acc p.2.docId (rrfScore p.1) none p.2.filePath p.2.chunkIndex)
    entries

/-- The contents of `doc_scores` after both folds, in first-insertion
order (one canonical order of the `HashMap`'s contents). -/
def fuseRRF (vres : List VectorHit) (lres : List LexicalSearchResult) : List FuseEntry :=
  fuseLexical (fuseVector [] vres) lres

/-- Comparison used by the sort (`cli/src/main.rs:382`): descending by
combined score; `partial_cmp(..).unwrap_or(Equal)` makes equal scores
compare equal, and the Rust sort is stable. -/
def fuseGE (a b : FuseEntry) : Prop := scoreLE b.score a.score

instance : DecidableRel fuseGE := fun a b =>
  inferInstanceAs (Decidable (scoreLE b.score a.score))

instance : IsTotal FuseEntry fuseGE :=
  ⟨fun a b => Nat.le_total (b.score.val.1 * a.score.val.2) (a.score.val.1 * b.score.val.2)⟩

instance : IsTrans FuseEntry fuseGE := by
  constructor
  intro a b c h1 h2
  unfold fuseGE scoreLE at h1 h2 ⊢
  have hb := b.score.property
  have H : c.score.val.1 * a.score.val.2 * b.score.val.2
      ≤ a.score.val.1 * c.score.val.2 * b.score.val.2 := by
    calc c.score.val.1 * a.score.val.2 * b.score.val.2
        = c.score.val.1 * b.score.val.2 * a.score.val.2 := by ring
      _ ≤ b.score.val.1 * c.score.val.2 * a.score.val.2 := Nat.mul_le_mul_right _ h2
      _ = b.score.val.1 * a.score.val.2 * c.score.val.2 := by ring
      _ ≤ a.score.val.1 * b.score.val.2 * c.score.val.2 := Nat.mul_le_mul_right _ h1
      _ = a.score.val.1 * c.score.val.2 * b.score.val.2 := by ring
  exact Nat.le_of_mul_le_mul_right H hb

/-- Strictly-descending entry comparison (used to show the sort result
is unique when the combined scores are pairwise distinct). -/
def fuseGT (a b : FuseEntry) : Prop := scoreLT b.score a.score

/-- The stable descending sort of the score-map contents
(`sorted.sort_by(|a, b| b.1.0.partial_cmp(&a.1.0)…)`,
`cli/src/main.rs:381-382`). Rust's `sort_by` is stable, so on any given
iteration order of the map the output is the stable descending
reordering — which is exactly insertion sort under `fuseGE`. -/
def sortByScore (entries : List FuseEntry) : List FuseEntry :=
  List.insertionSort fuseGE entries

/-- Sort then truncate to `limit` (`cli/src/main.rs:381-385`), starting
from one (arbitrary) iteration order `entries` of the score map. -/
def hybridFromEntries (entries : List FuseEntry) (limit : Nat) : List FuseEntry :=
  (sortByScore entries).take limit

/-- The hybrid result list for the canonical (first-insertion) iteration
order of the score map. -/
def hybridTake (vres : List VectorHit) (lres : List LexicalSearchResult)
    (limit : Nat) : List FuseEntry :=
  hybridFromEntries (fuseRRF vres lres) limit

/-! ## CLI `Commands::Search` dispatch (`cli/src/main.rs:292-396`)

The embedder and both stores are oracles: `embedQ` is
`embedder.embed(&query)`, `vsearch` is `store.search(embedding, k)`,
`getMeta` is `store.get_metadata(doc_id)` restricted to the snippet the
code reads from it. The lexical search is passed as a function of the
requested `k` so that theorems can instantiate it with `lexical_search`
above. Every `?` in the source is `Except` bind. -/

/-- One result row as printed by the CLI (`HybridResult`,
`cli/src/main.rs:16-23`). -/
structure CliResult where
  docId : String
  filePath : String
  chunkIndex : Nat
  snippet : Option String
  score : ℚ
  source : String
deriving DecidableEq, Repr

/-- The snippet-hydration loop of the lexical branch
(`cli/src/main.rs:327-343`): `store.get_metadata(&r.doc_id).await?`. -/
def hydrateLexical (getMeta : String → Except String (Option (Option String))) :
    List LexicalSearchResult → Except String (List CliResult)
  | [] => Except.ok []
  | r :: rest => do
    let meta ← getMeta r.docId
    let snippet := match meta with
      | some s => s
      | none => none
    let tail ← hydrateLexical getMeta rest
    Except.ok (⟨r.docId, r.filePath, r.chunkIndex, snippet, r.score, "lexical"⟩ :: tail)

/-- `Commands::Search` (`cli/src/main.rs:309-396`): dispatch on the mode
string; any string other than the semantic/vector and lexical/keyword
spellings selects the hybrid branch (`"hybrid" | _`). The hybrid branch
uses the canonical score-map order of `fuseRRF`. -/
def cliSearch {Emb : Type} (embedQ : Except String Emb)
    (vsearch : Emb → Nat → Except String (List VectorHit))
    (lsearch : Nat → Except String (List LexicalSearchResult))
    (getMeta : String → Except String (Option (Option String)))
    (mode : String) (limit : Nat) : Except String (List CliResult) :=
  if mode = "semantic" ∨ mode = "vector" then do
    let e ← embedQ
    let vr ← vsearch e limit
    Except.ok (vr.map (fun r =>
      ⟨r.docId, r.filePath, r.chunkIndex, r.snippet, r.score, "semantic"⟩))
  else if mode = "lexical" ∨ mode = "keyword" then do
    let lr ← lsearch limit
    hydrateLexical getMeta lr
  else do
    let e ← embedQ
    let vr ← vsearch e (limit * 2)
    let lr ← lsearch (limit * 2)
    Except.ok ((hybridTake vr lr limit).map (fun en =>
      ⟨en.docId, en.filePath, en.chunkIndex, en.snippet, scoreVal en.score, "hybrid"⟩))

/-! ## Spec-side comparison definitions and concrete fixtures -/

/-- The claim's wording of the `chunk_text` mode condition: the count of
NON-EMPTY paragraphs after splitting on double newlines is `> 1` and
`< len(text)/100`. (Written from the spec's words, for comparison with
`usesParagraphMode` taken from the source.) -/
def specNonEmptyParagraphCond (text : List Char) : Bool :=
  1 < ((splitNN text).filter (fun p => ¬ p.isEmpty)).length
  ∧ ((splitNN text).filter (fun p => ¬ p.isEmpty)).length < rustByteLen text / 100

/-- The amended mode condition: the count of ALL split pieces (empty
ones included) is `> 1` and `< len(text)/100`. (Written from the
amended claim's words, for comparison with `usesParagraphMode`.) -/
def specAllPiecesCond (text : List Char) : Bool :=
  1 < (splitNN text).length ∧ (splitNN text).length < rustByteLen text / 100

/-- A vector hit with the given doc_id (remaining fields are irrelevant
to rank fusion, which reads only ranks). -/
def vhit (id : String) : VectorHit := ⟨id, 0, some "s", "/p", 0⟩

/-- A lexical hit with the given doc_id. -/
def lhit (id : String) : LexicalSearchResult := ⟨id, "/p", 0, 0⟩

/-- The vector-side ranked list of spec scenario 5: `[A, B, C, D]`. -/
def c3Vector : List VectorHit := [vhit "A", vhit "B", vhit "C", vhit "D"]

/-- The lexical-side ranked list of spec scenario 5: `[B, E, A, F]`. -/
def c3Lexical : List LexicalSearchResult := [lhit "B", lhit "E", lhit "A", lhit "F"]

/-- A one-element vector list: doc `A` at rank 0. -/
def c4Vector : List VectorHit := [vhit "A"]

/-- A one-element lexical list: doc `B` at rank 0 — `A` and `B` then tie
with combined score `1/61` each. -/
def c4Lexical : List LexicalSearchResult := [lhit "B"]

/-- Witness oracle: a query parser that always fails. -/
def parseNoneOracle : List Char → Option Unit := fun _ => none

/-- Witness oracle: a searcher returning no hits for any query. -/
def execEmptyOracle : ParsedQuery Unit → Nat → Except String (List LexicalSearchResult) :=
  fun _ _ => Except.ok []

/-- Witness oracle: a vector search returning no hits. -/
def vsearchEmptyOracle : Unit → Nat → Except String (List VectorHit) :=
  fun _ _ => Except.ok []

/-- Witness oracle: metadata lookup that finds nothing. -/
def getMetaNoneOracle : String → Except String (Option (Option String)) :=
  fun _ => Except.ok none

/-! ## Helper lemmas: chunker arithmetic -/

lemma dropWhile_length_le {α : Type} (p : α → Bool) (l : List α) :
    (l.dropWhile p).length ≤ l.length := by
  induction l with
  | nil => simp
  | cons a t ih =>
    by_cases h : p a
    · simp only [List.dropWhile_cons, h, if_true]
      exact le_trans ih (Nat.le_succ _)
    · simp [List.dropWhile_cons, h]

lemma rustTrim_length_le (l : List Char) : (rustTrim l).length ≤ l.length := by
  unfold rustTrim
  calc (((l.dropWhile rustIsWhitespace).reverse.dropWhile rustIsWhitespace).reverse).length
      = ((l.dropWhile rustIsWhitespace).reverse.dropWhile rustIsWhitespace).length := by
        simp
    _ ≤ (l.dropWhile rustIsWhitespace).reverse.length := dropWhile_length_le _ _
    _ = (l.dropWhile rustIsWhitespace).length := by simp
    _ ≤ l.length := dropWhile_length_le _ _

lemma one_le_charByteSize (c : Char) : 1 ≤ charByteSize c := by
  unfold charByteSize
  by_cases h1 : c.toNat ≤ 0x7F <;> by_cases h2 : c.toNat ≤ 0x7FF <;>
    by_cases h3 : c.toNat ≤ 0xFFFF <;> simp [h1, h2, h3]

lemma length_le_rustByteLen (l : List Char) : l.length ≤ rustByteLen l := by
  induction l with
  | nil => simp [rustByteLen]
  | cons c t ih =>
    have : rustByteLen (c :: t) = charByteSize c + rustByteLen t := by
      simp [rustByteLen]
    rw [this]
    have := one_le_charByteSize c
    simp only [List.length_cons]
    omega

lemma rustByteLen_append (a b : List Char) :
    rustByteLen (a ++ b) = rustByteLen a + rustByteLen b := by
  simp [rustByteLen]

lemma findBreakPos_le (chars : List Char) (start : Nat) :
    ∀ bp, findBreakPos chars start bp ≤ bp := by
  intro bp
  induction bp with
  | zero => simp [findBreakPos]
  | succ n ih =>
    unfold findBreakPos
    split
    · exact le_trans ih (Nat.le_succ n)
    · exact le_refl _

lemma skipWsAux_ge (chars : List Char) :
    ∀ k start, start ≤ skipWsAux chars k start := by
  intro k
  induction k with
  | zero => intro start; simp [skipWsAux]
  | succ n ih =>
    intro start
    unfold skipWsAux
    split
    · exact le_trans (Nat.le_succ start) (ih (start + 1))
    · exact le_refl _

lemma skipWs_ge (chars : List Char) (start : Nat) : start ≤ skipWs chars start :=
  skipWsAux_ge chars _ start

lemma windowEnd_le (chars : List Char) (maxLen start : Nat) :
    windowEnd chars maxLen start ≤ start + maxLen := by
  unfold windowEnd
  have hmin : min (start + maxLen) chars.length ≤ start + maxLen := min_le_left _ _
  have hbp := findBreakPos_le chars start (min (start + maxLen) chars.length)
  split
  · split
    · omega
    · omega
  · omega

lemma lt_windowEnd (chars : List Char) (maxLen start : Nat) (hm : 1 ≤ maxLen)
    (hs : start < chars.length) : start < windowEnd chars maxLen start := by
  unfold windowEnd
  have hmin : start + 1 ≤ min (start + maxLen) chars.length := by omega
  split
  · split
    · omega
    · omega
  · omega

lemma chunkAux_isSome (chars : List Char) (maxLen : Nat) (hm : 1 ≤ maxLen) :
    ∀ fuel start, chars.length - start < fuel →
      (chunkAux chars maxLen fuel start).isSome = true := by
  intro fuel
  induction fuel with
  | zero => intro start h; omega
  | succ n ih =>
    intro start h
    unfold chunkAux
    by_cases hs : start < chars.length
    · rw [if_pos hs]
      have hnext : chars.length - skipWs chars (windowEnd chars maxLen start) < n := by
        have h1 := lt_windowEnd chars maxLen start hm hs
        have h2 := skipWs_ge chars (windowEnd chars maxLen start)
        omega
      have hsome := ih (skipWs chars (windowEnd chars maxLen start)) hnext
      cases hres : chunkAux chars maxLen n (skipWs chars (windowEnd chars maxLen start)) with
      | none => rw [hres] at hsome; simp at hsome
      | some cs => simp [hres]
    · rw [if_neg hs]
      rfl

lemma chunkAux_bounds (chars : List Char) (maxLen : Nat) :
    ∀ fuel start cs, chunkAux chars maxLen fuel start = some cs →
      ∀ c ∈ cs, ¬ c = [] ∧ c.length ≤ maxLen := by
  intro fuel
  induction fuel with
  | zero => intro start cs h; simp [chunkAux] at h
  | succ n ih =>
    intro start cs h
    unfold chunkAux at h
    by_cases hs : start < chars.length
    · rw [if_pos hs] at h
      cases hres : chunkAux chars maxLen n (skipWs chars (windowEnd chars maxLen start)) with
      | none => simp [hres] at h
      | some cs0 =>
        simp only [hres, Option.some.injEq] at h
        have hlen : (rustTrim ((chars.drop start).take (windowEnd chars maxLen start - start))).length
            ≤ maxLen := by
          have h1 := rustTrim_length_le ((chars.drop start).take (windowEnd chars maxLen start - start))
          have h2 : ((chars.drop start).take (windowEnd chars maxLen start - start)).length
              ≤ windowEnd chars maxLen start - start := by
            simp [List.length_take]
          have h3 := windowEnd_le chars maxLen start
          omega
        intro c hc
        rw [← h] at hc
        by_cases hemp :
            (rustTrim ((chars.drop start).take (windowEnd chars maxLen start - start))).isEmpty
        · rw [if_pos hemp] at hc
          exact ih _ cs0 hres c hc
        · rw [if_neg hemp] at hc
          cases hc with
          | head =>
            refine ⟨?_, hlen⟩
            intro hnil
            rw [hnil] at hemp
            simp at hemp
          | tail _ htail => exact ih _ cs0 hres c htail
    · rw [if_neg hs] at h
      simp only [Option.some.injEq] at h
      intro c hc
      rw [← h] at hc
      simp at hc

lemma chunk_by_chars_isSome (chars : List Char) (maxLen : Nat) (hm : 1 ≤ maxLen) :
    (chunk_by_chars chars maxLen).isSome = true :=
  chunkAux_isSome chars maxLen hm (chars.length + 1) 0 (by omega)

lemma chunk_by_chars_bounds (chars : List Char) (maxLen : Nat) (cs : List (List Char))
    (h : chunk_by_chars chars maxLen = some cs) :
    ∀ c ∈ cs, ¬ c = [] ∧ c.length ≤ maxLen :=
  chunkAux_bounds chars maxLen (chars.length + 1) 0 cs h

lemma ne_nil_of_isEmpty_false {α : Type} {l : List α} (h : l.isEmpty = false) : ¬ l = [] := by
  cases l with
  | nil => simp at h
  | cons a t => simp

lemma isEmpty_false_of_ne_nil {α : Type} {l : List α} (h : ¬ l = []) : l.isEmpty = false := by
  cases l with
  | nil => exact absurd rfl h
  | cons a t => rfl

lemma charByteSize_nl : charByteSize '\n' = 1 := by decide

lemma rustByteLen_nlnl (l : List Char) :
    rustByteLen ('\n' :: '\n' :: l) = 2 + rustByteLen l := by
  simp [rustByteLen, charByteSize_nl]
  omega

lemma cbpPre1_bounds (maxLen : Nat) (current para : List Char)
    (hcur : current = [] ∨ (¬ current = [] ∧ rustByteLen current ≤ maxLen)) :
    ∀ c ∈ cbpPre1 maxLen current para, ¬ c = [] ∧ c.length ≤ maxLen := by
  intro c hc
  unfold cbpPre1 at hc
  split at hc
  case isTrue hf =>
    simp only [List.mem_singleton] at hc
    subst hc
    have hne : ¬ c = [] := by
      unfold cbpFlush at hf
      simp only [decide_eq_true_eq] at hf
      intro hnil
      rw [hnil] at hf
      simp at hf
    rcases hcur with hnil | ⟨_, hbl⟩
    · exact absurd hnil hne
    · exact ⟨hne, le_trans (length_le_rustByteLen c) hbl⟩
  case isFalse => simp at hc

lemma cbpCur1_inv (maxLen : Nat) (current para : List Char)
    (hcur : current = [] ∨ (¬ current = [] ∧ rustByteLen current ≤ maxLen)) :
    cbpCur1 maxLen current para = []
      ∨ (¬ cbpCur1 maxLen current para = []
          ∧ rustByteLen (cbpCur1 maxLen current para) ≤ maxLen) := by
  unfold cbpCur1
  split
  · exact Or.inl rfl
  · exact hcur

lemma cbpFlushed_bounds (maxLen : Nat) (current para : List Char)
    (hcur : current = [] ∨ (¬ current = [] ∧ rustByteLen current ≤ maxLen)) :
    ∀ c ∈ cbpFlushed maxLen current para, ¬ c = [] ∧ c.length ≤ maxLen := by
  intro c hc
  unfold cbpFlushed at hc
  split at hc
  · exact cbpPre1_bounds maxLen current para hcur c hc
  case isFalse hne =>
    rw [List.mem_append] at hc
    rcases hc with hc | hc
    · exact cbpPre1_bounds maxLen current para hcur c hc
    · simp only [List.mem_singleton] at hc
      have h1 : ¬ cbpCur1 maxLen current para = [] := by
        intro hnil
        rw [hnil] at hne
        simp at hne
      rcases cbpCur1_inv maxLen current para hcur with h2 | ⟨_, h2⟩
      · exact absurd h2 h1
      · rw [hc]
        exact ⟨h1, le_trans (length_le_rustByteLen _) h2⟩

lemma cbpAppend_inv (maxLen : Nat) (current para : List Char)
    (hpara : ¬ para = []) (hlen : rustByteLen para ≤ maxLen) :
    ¬ cbpAppend maxLen current para = []
      ∧ rustByteLen (cbpAppend maxLen current para) ≤ maxLen := by
  unfold cbpAppend
  split
  · exact ⟨hpara, hlen⟩
  case isFalse hne =>
    have hc1 : ¬ cbpCur1 maxLen current para = [] := by
      intro hnil
      rw [hnil] at hne
      simp at hne
    constructor
    · intro hnil
      exact hc1 (List.append_eq_nil.mp hnil).1
    · have hflushFalse : ¬ cbpFlush maxLen current para = true := by
        intro hf
        apply hc1
        unfold cbpCur1
        rw [if_pos hf]
      have hcureq : cbpCur1 maxLen current para = current := by
        unfold cbpCur1
        rw [if_neg hflushFalse]
      have hcurne : ¬ current = [] := by
        rw [hcureq] at hc1
        exact hc1
      have hsum : rustByteLen current + rustByteLen para + 2 ≤ maxLen := by
        unfold cbpFlush at hflushFalse
        simp only [decide_eq_true_eq, not_and, not_lt] at hflushFalse
        exact hflushFalse (by simp [isEmpty_false_of_ne_nil hcurne])
      rw [hcureq, rustByteLen_append, rustByteLen_nlnl]
      omega

lemma cbpAux_bounds (maxLen : Nat) :
    ∀ paras current cs,
      (current = [] ∨ (¬ current = [] ∧ rustByteLen current ≤ maxLen)) →
      cbpAux maxLen paras current = some cs →
      ∀ c ∈ cs, ¬ c = [] ∧ c.length ≤ maxLen := by
  intro paras
  induction paras with
  | nil =>
    intro current cs hcur h
    unfold cbpAux at h
    split at h
    · simp only [Option.some.injEq] at h
      intro c hc
      rw [← h] at hc
      simp at hc
    case isFalse hne =>
      simp only [Option.some.injEq] at h
      intro c hc
      rw [← h] at hc
      simp only [List.mem_singleton] at hc
      subst hc
      rcases hcur with hnil | ⟨h1, h2⟩
      · rw [hnil] at hne; simp at hne
      · exact ⟨h1, le_trans (length_le_rustByteLen _) h2⟩
  | cons p ps ih =>
    intro current cs hcur h
    unfold cbpAux at h
    by_cases hemp : (rustTrim p).isEmpty
    · rw [if_pos hemp] at h
      exact ih current cs hcur h
    · rw [if_neg hemp] at h
      by_cases hlong : maxLen < rustByteLen (rustTrim p)
      · rw [if_pos hlong] at h
        cases h1 : chunk_by_chars (rustTrim p) maxLen with
        | none => rw [h1] at h; simp at h
        | some sub =>
          rw [h1] at h
          cases h2 : cbpAux maxLen ps [] with
          | none => rw [h2] at h; simp at h
          | some rest =>
            rw [h2] at h
            simp only [Option.some.injEq] at h
            intro c hc
            rw [← h] at hc
            simp only [List.append_assoc, List.mem_append] at hc
            rcases hc with hc | hc | hc
            · exact cbpFlushed_bounds maxLen current (rustTrim p) hcur c hc
            · exact chunk_by_chars_bounds (rustTrim p) maxLen sub h1 c hc
            · exact ih [] rest (Or.inl rfl) h2 c hc
      · rw [if_neg hlong] at h
        cases h2 : cbpAux maxLen ps (cbpAppend maxLen current (rustTrim p)) with
        | none => rw [h2] at h; simp at h
        | some rest =>
          rw [h2] at h
          simp only [Option.some.injEq] at h
          intro c hc
          rw [← h] at hc
          rcases List.mem_append.mp hc with hc | hc
          · exact cbpPre1_bounds maxLen current (rustTrim p) hcur c hc
          · have hinv := cbpAppend_inv maxLen current (rustTrim p)
              (ne_nil_of_isEmpty_false (by
                cases hval : (rustTrim p).isEmpty
                · rfl
                · exact absurd hval hemp))
              (by omega)
            exact ih (cbpAppend maxLen current (rustTrim p)) rest (Or.inr hinv) h2 c hc

lemma cbpAux_isSome (maxLen : Nat) (hm : 1 ≤ maxLen) :
    ∀ paras current, (cbpAux maxLen paras current).isSome = true := by
  intro paras
  induction paras with
  | nil => intro current; simp [cbpAux]
  | cons p ps ih =>
    intro current
    unfold cbpAux
    by_cases hemp : (rustTrim p).isEmpty
    · rw [if_pos hemp]
      exact ih current
    · rw [if_neg hemp]
      by_cases hlong : maxLen < rustByteLen (rustTrim p)
      · rw [if_pos hlong]
        have hsub := chunk_by_chars_isSome (rustTrim p) maxLen hm
        cases h1 : chunk_by_chars (rustTrim p) maxLen with
        | none => rw [h1] at hsub; simp at hsub
        | some sub =>
          have hrest := ih []
          cases h2 : cbpAux maxLen ps [] with
          | none => rw [h2] at hrest; simp at hrest
          | some rest => simp
      · rw [if_neg hlong]
        have hrest := ih (cbpAppend maxLen current (rustTrim p))
        cases h2 : cbpAux maxLen ps (cbpAppend maxLen current (rustTrim p)) with
        | none => rw [h2] at hrest; simp at hrest
        | some rest => simp [h2]

lemma chunk_by_paragraphs_bounds (paras : List (List Char)) (maxLen : Nat)
    (cs : List (List Char)) (h : chunk_by_paragraphs paras maxLen = some cs) :
    ∀ c ∈ cs, ¬ c = [] ∧ c.length ≤ maxLen :=
  cbpAux_bounds maxLen paras [] cs (Or.inl rfl) h

lemma chunk_by_paragraphs_isSome (paras : List (List Char)) (maxLen : Nat) (hm : 1 ≤ maxLen) :
    (chunk_by_paragraphs paras maxLen).isSome = true :=
  cbpAux_isSome maxLen hm paras []

/-! ## Claim theorems: chunker -/

/-- C6: for every input text and every `max_len ≥ 1`, every chunk
returned by the chunker — in paragraph mode (`chunk_by_paragraphs`), in
character mode (`chunk_by_chars`), and hence by `chunk_text` — is
non-empty and has character length (Unicode scalar values) at most
`max_len`. -/
theorem c6_chunk_bounds (maxLen : Nat) (_hm : 1 ≤ maxLen) :
    (∀ text cs, chunk_by_chars text maxLen = some cs →
      ∀ c ∈ cs, ¬ c = [] ∧ c.length ≤ maxLen)
    ∧ (∀ paras cs, chunk_by_paragraphs paras maxLen = some cs →
      ∀ c ∈ cs, ¬ c = [] ∧ c.length ≤ maxLen)
    ∧ (∀ text cs, chunk_text text maxLen = some cs →
      ∀ c ∈ cs, ¬ c = [] ∧ c.length ≤ maxLen) := by
  refine ⟨fun text cs h => chunk_by_chars_bounds text maxLen cs h,
    fun paras cs h => chunk_by_paragraphs_bounds paras maxLen cs h,
    fun text cs h => ?_⟩
  unfold chunk_text at h
  split at h
  · exact chunk_by_paragraphs_bounds _ maxLen cs h
  · exact chunk_by_chars_bounds text maxLen cs h

/-- Witness for C6 at `text = "hello world"`, `max_len = 5`: the
computed chunks are `["hello", "world"]` and the first satisfies the
bound. -/
theorem c6_chunk_bounds_witness :
    ¬ String.toList "hello" = [] ∧ (String.toList "hello").length ≤ 5 :=
  (c6_chunk_bounds 5 (by decide)).2.2 (String.toList "hello world")
    [String.toList "hello", String.toList "world"] (by decide)
    (String.toList "hello") (by decide)

/-- C10: for every input text and every `max_len ≥ 1`, `chunk_text`
terminates: the fuelled embedding never exhausts its fuel (each
character-mode iteration advances the window start by at least one
scalar value, and paragraph mode recurses on a structurally smaller
paragraph list). -/
theorem c10_chunk_text_terminates (text : List Char) (maxLen : Nat) (hm : 1 ≤ maxLen) :
    (chunk_text text maxLen).isSome = true := by
  unfold chunk_text
  split
  · exact chunk_by_paragraphs_isSome _ maxLen hm
  · exact chunk_by_chars_isSome text maxLen hm

/-- Witness for C10 at a two-paragraph text and `max_len = 1`. -/
theorem c10_chunk_text_terminates_witness :
    (chunk_text (String.toList "a b\n\nc d e") 1).isSome = true :=
  c10_chunk_text_terminates (String.toList "a b\n\nc d e") 1 (by decide)

set_option maxRecDepth 40000 in
/-- C7 counterexample: on `text` of 300 `a`s followed by one double
newline, `split("\n\n")` yields the two pieces `[a^300, ""]`, so the
code's condition (`2 > 1` and `2 < 302/100 = 3`) selects paragraph
mode, while the claim's count of NON-EMPTY paragraphs is `1`, which
selects character mode. -/
theorem c7_counterexample :
    usesParagraphMode (List.replicate 300 'a' ++ ['\n', '\n']) = true
    ∧ specNonEmptyParagraphCond (List.replicate 300 'a' ++ ['\n', '\n']) = false := by
  constructor
  · decide
  · decide

/-- C7 amended: `chunk_text` uses paragraph mode iff the count of ALL
pieces produced by splitting on double newlines — empty pieces included
— is greater than 1 and less than `len(text)/100` (byte length). -/
theorem c7_amended (text : List Char) (maxLen : Nat) :
    usesParagraphMode text = specAllPiecesCond text
    ∧ chunk_text text maxLen
        = (if specAllPiecesCond text = true
           then chunk_by_paragraphs (splitNN text) maxLen
           else chunk_by_chars text maxLen) := by
  constructor
  · rfl
  · rfl

/-! ## Claim theorems: state manager, checkpoints and GC -/

lemma lookupRec_upsert_self (st : StateDb) (p : String) (r : FileRec) :
    lookupRec (upsertRec st p r) p = some r := by
  induction st with
  | nil => simp [upsertRec, lookupRec]
  | cons e rest ih =>
    cases e with
    | mk q r0 =>
      unfold upsertRec
      by_cases h : q = p
      · rw [if_pos h]
        simp [lookupRec]
      · rw [if_neg h]
        unfold lookupRec
        rw [if_neg h]
        exact ih

/-- C1: `mark_page_indexed(path, mtime, page_num, total_pages,
page_doc_ids)` appends `page_doc_ids` to the file's recorded doc_id set
and sets `page_cursor = page_num + 1`, clearing the cursor when
`page_cursor == total_pages`; `get_resume_page(path, m')` then returns
that cursor exactly when `m'` equals the stored mtime and the cursor is
present, and `none` otherwise; consequently Phase 3's `resume_page`
computation resumes an interrupted file from page `page_num + 1`
(`pages.skip(resume_page)` drops exactly the checkpointed pages). -/
theorem c1_paged_checkpoint (st : StateDb) (path : String) (mtime : Int)
    (pageNum totalPages : Nat) (ids : List String) :
    docIdsOf (mark_page_indexed st path mtime pageNum totalPages ids) path
      = docIdsOf st path ++ ids
    ∧ (∀ m' : Int,
        get_resume_page (mark_page_indexed st path mtime pageNum totalPages ids) path m'
          = if m' = mtime ∧ ¬ pageNum + 1 = totalPages then some (pageNum + 1) else none)
    ∧ resumePage (mark_page_indexed st path mtime pageNum totalPages ids) path mtime
        = (if pageNum + 1 = totalPages then 0 else pageNum + 1)
    ∧ (∀ pages : List Nat,
        pagesProcessed pages
            (resumePage (mark_page_indexed st path mtime pageNum totalPages ids) path mtime)
          = pages.drop (if pageNum + 1 = totalPages then 0 else pageNum + 1)) := by
  have hlook := lookupRec_upsert_self st path
    { mtime := mtime
      docIds := ((lookupRec st path).getD ⟨mtime, [], none, none⟩).docIds ++ ids
      pageCursor := if pageNum + 1 = totalPages then none else some (pageNum + 1)
      totalPages := some totalPages }
  refine ⟨?_, ?_, ?_, ?_⟩
  · unfold docIdsOf mark_page_indexed
    rw [hlook]
    cases h : lookupRec st path with
    | none => simp [h]
    | some r => simp [h]
  · intro m'
    unfold get_resume_page mark_page_indexed
    rw [hlook]
    by_cases hm : m' = mtime
    · by_cases hc : pageNum + 1 = totalPages
      · simp [hm, hc]
      · simp [hm, hc]
    · have : ¬ mtime = m' := fun h => hm h.symm
      simp [this, hm]
  · unfold resumePage
    unfold get_resume_page mark_page_indexed
    rw [hlook]
    by_cases hc : pageNum + 1 = totalPages
    · simp [hc]
    · simp [hc]
  · intro pages
    unfold pagesProcessed
    unfold resumePage get_resume_page mark_page_indexed
    rw [hlook]
    by_cases hc : pageNum + 1 = totalPages
    · simp [hc]
    · simp [hc]

/-- C2 (code bug witness): evaluate `garbage_collect` on a state that
records file `"f"` (mtime 5, owning doc `"d"`), a disk on which no path
exists, and both indexes holding the row `"d"`. The file row is removed
and `"d"` is deleted from the VECTOR store (`embeddings_removed = 1`),
but the LEXICAL index still holds `"d"`: `garbage_collect`
(`nexus_core/src/lib.rs:120-150`) never calls `delete_by_doc_ids` on
`self.lexical`, contradicting the claim (and spec §4.G step 1) that the
doc_ids are removed from both indexes. -/
theorem c2_gc_leaves_lexical :
    garbage_collect [("f", ⟨5, ["d"], none, none⟩)] (fun _ => none) ["d"] ["d"]
      = ⟨[], [], ["d"], ⟨1, 0, 1⟩⟩ := by
  decide

/-- C5 counterexample: a path that is NOT recorded in the state database
and does NOT exist on disk has derived state `NotIndexed`
(`state.rs:121-122` returns before consulting the disk), so
`needs_indexing` returns `true` — the claim requires `false` for every
path absent from disk. -/
theorem c5_counterexample :
    (fun _ => (none : Option Int)) "p" = none
    ∧ needs_indexing [] (fun _ => none) "p" = true :=
  ⟨rfl, rfl⟩

/-- C5 amended: `needs_indexing(path)` returns true exactly when the
derived state is `NotIndexed` or `Modified` (disk mtime strictly greater
than stored mtime); for every RECORDED path absent from disk (state
`Deleted`) it returns false; an UNRECORDED path yields true even when it
does not exist on disk. -/
theorem c5_amended (st : StateDb) (disk : String → Option Int) (path : String) :
    (needs_indexing st disk path = true ↔
      (get_file_state st disk path = .NotIndexed ∨ get_file_state st disk path = .Modified))
    ∧ (∀ r, lookupRec st path = some r → disk path = none →
        needs_indexing st disk path = false)
    ∧ (lookupRec st path = none → needs_indexing st disk path = true) := by
  refine ⟨?_, ?_, ?_⟩
  · unfold needs_indexing
    cases h : get_file_state st disk path <;> simp
  · intro r hr hd
    unfold needs_indexing get_file_state
    rw [hr]
    unfold rowState
    rw [hd]
  · intro hr
    unfold needs_indexing get_file_state
    rw [hr]

/-- Witness for C5 amended: a recorded-but-deleted file is not
re-indexed; an unrecorded path is. -/
theorem c5_amended_witness :
    needs_indexing [("p", ⟨5, [], none, none⟩)] (fun _ => none) "p" = false
    ∧ needs_indexing [] (fun _ => none) "q" = true :=
  ⟨(c5_amended [("p", ⟨5, [], none, none⟩)] (fun _ => none) "p").2.1
      ⟨5, [], none, none⟩ (by decide) rfl,
   (c5_amended [] (fun _ => none) "q").2.2 (by decide)⟩

/-! ## Claim theorems: search -/

/-- C8: `LexicalIndex::search(query, k)` returns `Ok(vec![])` without
error for every query whose `trim()` is empty (empty or whitespace-only
queries); and for every non-empty query on which the parser fails it
proceeds with the match-all fallback query instead of returning an
error — the result is exactly whatever the searcher yields for
`AllQuery`, for every parser and searcher. -/
theorem c8_lexical_search_fallbacks {Q : Type} (parse : List Char → Option Q)
    (exec : ParsedQuery Q → Nat → Except String (List LexicalSearchResult))
    (queryStr : List Char) (topK : Nat) :
    ((rustTrim queryStr).isEmpty = true →
      lexical_search parse exec queryStr topK = Except.ok [])
    ∧ ((rustTrim queryStr).isEmpty = false → parse queryStr = none →
      lexical_search parse exec queryStr topK = exec .matchAll topK) := by
  constructor
  · intro h
    unfold lexical_search
    rw [if_pos h]
  · intro h hp
    unfold lexical_search
    rw [if_neg (by simp [h]), hp]

/-- Witness for C8: a whitespace-only query returns `Ok([])`; a
non-empty query under an always-failing parser runs the match-all
searcher. -/
theorem c8_lexical_search_fallbacks_witness :
    lexical_search parseNoneOracle execEmptyOracle (String.toList "  ") 7 = Except.ok []
    ∧ lexical_search parseNoneOracle execEmptyOracle (String.toList "abc") 7
        = execEmptyOracle .matchAll 7 :=
  ⟨(c8_lexical_search_fallbacks parseNoneOracle execEmptyOracle (String.toList "  ") 7).1
      (by decide),
   (c8_lexical_search_fallbacks parseNoneOracle execEmptyOracle (String.toList "abc") 7).2
      (by decide) rfl⟩

/-- C9: with `limit = 0`, `Commands::Search` returns `Ok([])` in each of
the semantic, lexical and hybrid modes, for every query and every
backend obeying the §4.D/§4.E top-k contract at `k = 0` (the embedder
succeeds, and vector search and tantivy execution return no hits and no
error when asked for zero results). The lexical leg is the embedded
`lexical_search`; the hybrid leg requests `limit * 2 = 0` from both
sides and truncates to `limit = 0`. -/
theorem c9_limit_zero {Q Emb : Type} (parse : List Char → Option Q)
    (exec : ParsedQuery Q → Nat → Except String (List LexicalSearchResult))
    (queryStr : List Char)
    (getMeta : String → Except String (Option (Option String)))
    (embedQ : Except String Emb) (vsearch : Emb → Nat → Except String (List VectorHit))
    (e0 : Emb) (hembed : embedQ = Except.ok e0)
    (hv : ∀ e, vsearch e 0 = Except.ok [])
    (hexec : ∀ pq, exec pq 0 = Except.ok []) :
    cliSearch embedQ vsearch (lexical_search parse exec queryStr) getMeta "semantic" 0
      = Except.ok []
    ∧ cliSearch embedQ vsearch (lexical_search parse exec queryStr) getMeta "lexical" 0
      = Except.ok []
    ∧ cliSearch embedQ vsearch (lexical_search parse exec queryStr) getMeta "hybrid" 0
      = Except.ok [] := by
  have hlex : lexical_search parse exec queryStr 0 = Except.ok [] := by
    unfold lexical_search
    by_cases h : (rustTrim queryStr).isEmpty
    · rw [if_pos h]
    · rw [if_neg h]
      cases hp : parse queryStr with
      | some q => exact hexec (.parsed q)
      | none => exact hexec .matchAll
  have hbind : ∀ {α β : Type} (x : α) (f : α → Except String β),
      (Except.ok x >>= f) = f x := fun _ _ => rfl
  refine ⟨?_, ?_, ?_⟩
  · unfold cliSearch
    rw [if_pos (Or.inl rfl), hembed, hbind, hv e0]
    rfl
  · unfold cliSearch
    rw [if_neg (by simp), if_pos (Or.inl rfl), hlex]
    rfl
  · unfold cliSearch
    rw [if_neg (by simp), if_neg (by simp), hembed, hbind]
    simp only [Nat.zero_mul]
    rw [hv e0, hbind, hlex]
    rfl

/-- Witness for C9 with concrete empty-returning oracles. -/
theorem c9_limit_zero_witness :
    cliSearch (Except.ok ()) vsearchEmptyOracle
        (lexical_search parseNoneOracle execEmptyOracle (String.toList "q"))
        getMetaNoneOracle "semantic" 0 = Except.ok []
    ∧ cliSearch (Except.ok ()) vsearchEmptyOracle
        (lexical_search parseNoneOracle execEmptyOracle (String.toList "q"))
        getMetaNoneOracle "lexical" 0 = Except.ok []
    ∧ cliSearch (Except.ok ()) vsearchEmptyOracle
        (lexical_search parseNoneOracle execEmptyOracle (String.toList "q"))
        getMetaNoneOracle "hybrid" 0 = Except.ok [] :=
  c9_limit_zero parseNoneOracle execEmptyOracle (String.toList "q") getMetaNoneOracle
    (Except.ok ()) vsearchEmptyOracle () rfl (fun _ => rfl) (fun _ => rfl)

/-! ## Claim theorems: hybrid rank fusion -/

lemma scoreVal_pos_den (x : Score) : (0 : ℚ) < (x.val.2 : ℚ) := by
  exact_mod_cast x.property

/-- The cross-multiplication order on scores agrees with the rational
order of their values: the embedding's comparisons are the real-number
comparisons of the source. -/
lemma scoreLE_iff_scoreVal (x y : Score) : scoreLE x y ↔ scoreVal x ≤ scoreVal y := by
  unfold scoreLE scoreVal
  rw [div_le_div_iff₀ (scoreVal_pos_den x) (scoreVal_pos_den y)]
  exact_mod_cast Iff.rfl

/-- And value inequality agrees with rational inequality. -/
lemma scoreNe_iff_scoreVal (x y : Score) : scoreNe x y ↔ ¬ scoreVal x = scoreVal y := by
  unfold scoreNe scoreVal
  rw [div_eq_div_iff (scoreVal_pos_den x).ne.symm (scoreVal_pos_den y).ne.symm]
  exact_mod_cast Iff.rfl

lemma sortByScore_sorted (l : List FuseEntry) : (sortByScore l).Sorted fuseGE :=
  List.sorted_insertionSort fuseGE l

lemma sortByScore_perm (l : List FuseEntry) : (sortByScore l).Perm l :=
  List.perm_insertionSort fuseGE l

/-- When all combined scores are pairwise distinct, every iteration
order of the score map sorts to the same list. -/
lemma sortByScore_eq_of_perm (l₁ l₂ : List FuseEntry) (hp : l₁.Perm l₂)
    (hd : l₂.Pairwise (fun a b => scoreNe a.score b.score)) :
    sortByScore l₁ = sortByScore l₂ := by
  have hperm : (sortByScore l₁).Perm (sortByScore l₂) :=
    (sortByScore_perm l₁).trans (hp.trans (sortByScore_perm l₂).symm)
  have hsymm : Symmetric (fun a b : FuseEntry => scoreNe a.score b.score) := by
    intro a b h heq
    exact h heq.symm
  have hd2 : (sortByScore l₂).Pairwise (fun a b => scoreNe a.score b.score) :=
    ((sortByScore_perm l₂).pairwise_iff (fun {x y} h => hsymm h)).mpr hd
  have hd1 : (sortByScore l₁).Pairwise (fun a b => scoreNe a.score b.score) :=
    (hperm.pairwise_iff (fun {x y} h => hsymm h)).mpr hd2
  have hstrict : ∀ l : List FuseEntry, l.Sorted fuseGE →
      l.Pairwise (fun a b => scoreNe a.score b.score) → l.Pairwise fuseGT := by
    intro l hs hdl
    refine (hs.and hdl).imp ?_
    intro a b hab
    have h1 : scoreLE b.score a.score := hab.1
    have h2 : scoreNe a.score b.score := hab.2
    unfold scoreLE at h1
    unfold fuseGT scoreLT
    omega
  haveI : IsAntisymm FuseEntry fuseGT := by
    constructor
    intro a b h1 h2
    unfold fuseGT scoreLT at h1 h2
    omega
  exact List.eq_of_perm_of_sorted hperm (hstrict _ (sortByScore_sorted l₁) hd1)
    (hstrict _ (sortByScore_sorted l₂) hd2)

set_option maxRecDepth 100000 in
/-- C3 counterexample: with vector ranking `[A, B, C, D]` and lexical
ranking `[B, E, A, F]`, `k = 60`, `limit = 3`, the RRF totals are
`B = 1/62 + 1/61`, `A = 1/61 + 1/63`, `E = 1/62`, `C = 1/63`,
`D = F = 1/64`, so the fused top-3 of the embedded hybrid branch is
`B, A, E` — not `B, A, C` as the claim (spec scenario 5) states: `E` at
lexical rank 1 scores `1/62 > 1/63 = C`'s vector-rank-2 score. -/
theorem c3_counterexample :
    (hybridTake c3Vector c3Lexical 3).map FuseEntry.docId = ["B", "A", "E"]
    ∧ ¬ (hybridTake c3Vector c3Lexical 3).map FuseEntry.docId = ["B", "A", "C"] := by
  constructor
  · decide
  · decide

set_option maxRecDepth 1000000 in
/-- C3 amended: on those ranked lists the hybrid search returns exactly
`B`, then `A`, then `E` — under EVERY iteration order of the score map
(the top three combined scores are distinct and above all others). -/
theorem c3_amended (entries : List FuseEntry)
    (hp : entries.Perm (fuseRRF c3Vector c3Lexical)) :
    (hybridFromEntries entries 3).map FuseEntry.docId = ["B", "A", "E"] := by
  have hall : ∀ l ∈ (fuseRRF c3Vector c3Lexical).permutations',
      (hybridFromEntries l 3).map FuseEntry.docId = ["B", "A", "E"] := by decide
  exact hall entries (List.mem_permutations'.mpr hp)

/-- Witness for C3 amended at the canonical first-insertion order. -/
theorem c3_amended_witness :
    (hybridFromEntries (fuseRRF c3Vector c3Lexical) 3).map FuseEntry.docId
      = ["B", "A", "E"] :=
  c3_amended (fuseRRF c3Vector c3Lexical) (List.Perm.refl _)

/-- C4 counterexample: with vector `[A]` and lexical `[B]` both `A` and
`B` have combined score `1/61`. The reversed iteration order of the
score map is a permutation of its contents (both orders are admissible
for a `HashMap`), yet the sort-and-truncate step returns `[B, A]` on
one and `[A, B]` on the other: ties are NOT broken by the earlier
first-observed rank (`A`, seen first on the vector side, would then
always come first) and the output ordering is NOT uniquely determined
by the input ranked lists. -/
theorem c4_counterexample :
    ((fuseRRF c4Vector c4Lexical).reverse).Perm (fuseRRF c4Vector c4Lexical)
    ∧ (hybridFromEntries (fuseRRF c4Vector c4Lexical).reverse 2).map FuseEntry.docId
        = ["B", "A"]
    ∧ (hybridFromEntries (fuseRRF c4Vector c4Lexical) 2).map FuseEntry.docId
        = ["A", "B"] :=
  ⟨List.reverse_perm _, by decide, by decide⟩

/-- C4 amended: after summing the RRF contributions per doc_id, the
result list is sorted descending by combined score (stably) and
truncated to `limit`; ties between equal scores are left in the score
map's unspecified iteration order, so the output is uniquely determined
(identical on every run) whenever the combined scores are pairwise
distinct. -/
theorem c4_amended (vres : List VectorHit) (lres : List LexicalSearchResult)
    (limit : Nat) (entries : List FuseEntry)
    (hp : entries.Perm (fuseRRF vres lres)) :
    (hybridFromEntries entries limit).Sorted fuseGE
    ∧ ((fuseRRF vres lres).Pairwise (fun a b => scoreNe a.score b.score) →
        hybridFromEntries entries limit = hybridTake vres lres limit) := by
  constructor
  · exact List.Pairwise.sublist (List.take_sublist _ _) (sortByScore_sorted entries)
  · intro hd
    unfold hybridTake hybridFromEntries
    rw [sortByScore_eq_of_perm entries (fuseRRF vres lres) hp hd]

/-- Witness for C4 amended: one vector hit, no lexical hits, distinct
scores. -/
theorem c4_amended_witness :
    (hybridFromEntries (fuseRRF c4Vector []) 1).Sorted fuseGE
    ∧ hybridFromEntries (fuseRRF c4Vector []) 1 = hybridTake c4Vector [] 1 :=
  ⟨(c4_amended c4Vector [] 1 (fuseRRF c4Vector []) (List.Perm.refl _)).1,
   (c4_amended c4Vector [] 1 (fuseRRF c4Vector []) (List.Perm.refl _)).2 (by decide)⟩
